import Mathlib

/-!
Verification of the DNS-SD name-splitting core of `src/common/dns_utils.cpp`.

Strings are embedded as `List Char`; `std::string::npos` results of the search
primitives are embedded as `Option Nat` (`none` = npos).  `std::string::substr`
clamps the requested length to what remains of the string, which `List.take`
does as well; every call site used below passes a start position that is at
most the string length, so the out-of-range exception of `substr` never fires.
-/

namespace DnsUtils

/-- `NameEndsWithDot` (dns_utils.cpp): `!aName.empty() && aName.back() == '.'`. -/
def NameEndsWithDot (aName : List Char) : Bool :=
  match aName.getLast? with
  | some c => decide (c = '.')
  | none => false

/-- The `if (!NameEndsWithDot(x)) x += '.';` pattern that `SplitFullDnsName`
applies, first to its working copy of the input and finally to `mDomain`. -/
def ensureEndsWithDot (s : List Char) : List Char :=
  if NameEndsWithDot s then s else s ++ ['.']

/-- First index of `c` in the list, as `std::string::find_first_of(c)` with
start position 0 on the suffix handed to it. -/
def findChar (c : Char) : List Char → Option Nat
  | [] => none
  | x :: xs => if x = c then some 0 else (findChar c xs).map (· + 1)

/-- `std::string::find_first_of(c, start)`: first index `≥ start` holding `c`. -/
def findCharFrom (s : List Char) (c : Char) (start : Nat) : Option Nat :=
  (findChar c (s.drop start)).map (fun j => start + j)

/-- `std::string::rfind(pat)`: the largest index at which `pat` occurs. -/
def rfindSub (s pat : List Char) : Option Nat :=
  ((List.range (s.length + 1)).filter (fun i => pat.isPrefixOf (s.drop i))).getLast?

/-- `std::string::find_last_of(c, pos)`: the largest index `≤ pos` holding `c`. -/
def findLastCharLe (s : List Char) (c : Char) (pos : Nat) : Option Nat :=
  ((List.range s.length).filter
    (fun i => decide (i ≤ pos) && decide (s.getD i ' ' = c))).getLast?

/-- `std::string::substr(pos)` (tail from `pos`). -/
def substrFrom (s : List Char) (pos : Nat) : List Char := s.drop pos

/-- `std::string::substr(pos, len)`; the length is clamped exactly as in C++. -/
def substrLen (s : List Char) (pos len : Nat) : List Char := (s.drop pos).take len

/-- `std::count(begin, end, c)`. -/
def countChar (c : Char) : List Char → Nat
  | [] => 0
  | x :: xs => (if x = c then 1 else 0) + countChar c xs

/-- The search pattern `"._udp"`. -/
def udpMarker : List Char := "._udp".toList

/-- The search pattern `"._tcp"`. -/
def tcpMarker : List Char := "._tcp".toList

/-- `DnsNameInfo` (declared in common/dns_utils.hpp): default-constructed
fields are empty strings / an empty vector. -/
structure DnsNameInfo where
  mInstanceName : List Char := []
  mServiceName : List Char := []
  mHostName : List Char := []
  mDomain : List Char := []
  mSubtypes : List (List Char) := []
deriving DecidableEq

/-- Modelled from the spec: `IsHost()` ⇔ `hostName` set.  The declaration of
the predicate lives in `common/dns_utils.hpp`, which is not among the sources
here. -/
def DnsNameInfo.IsHost (aInfo : DnsNameInfo) : Bool :=
  !aInfo.mHostName.isEmpty

/-- Modelled from the spec: `IsService()` ⇔ `serviceName` set and
`instanceName` unset (declared in `common/dns_utils.hpp`, not among the
sources). -/
def DnsNameInfo.IsService (aInfo : DnsNameInfo) : Bool :=
  !aInfo.mServiceName.isEmpty && aInfo.mInstanceName.isEmpty

/-- Modelled from the spec: `IsServiceInstance()` ⇔ `serviceName` set and
`instanceName` set (declared in `common/dns_utils.hpp`, not among the
sources). -/
def DnsNameInfo.IsServiceInstance (aInfo : DnsNameInfo) : Bool :=
  !aInfo.mServiceName.isEmpty && !aInfo.mInstanceName.isEmpty

/-- Modelled from the spec: the error-code enumeration lives in
`common/types.hpp`, which is not among the sources.  The spec's taxonomy names
success and a single error kind, InvalidArgument; the plumbing carries further
codes, a few of which are represented so that "the error is always
InvalidArgument" is a real statement about the extractors. -/
inductive otbrError where
  | OTBR_ERROR_NONE
  | OTBR_ERROR_INVALID_ARGS
  | OTBR_ERROR_NOT_FOUND
  | OTBR_ERROR_PARSE
deriving DecidableEq

/-- The loop of `SplitSubtypes`: runs once per `','` counted in the fragment;
`prevCommaPos` tracks the comma opening the current segment.  When no further
comma exists the segment runs to the end of the fragment and, as in the C++,
`prevCommaPos` is left unchanged. -/
def splitSubtypesLoop (aSubtypes : List Char) :
    Nat → Nat → List (List Char) → List (List Char)
  | _, 0, acc => acc
  | prevCommaPos, Nat.succ m, acc =>
    match findCharFrom aSubtypes ',' (prevCommaPos + 1) with
    | none =>
        splitSubtypesLoop aSubtypes prevCommaPos m
          (acc ++ [substrFrom aSubtypes (prevCommaPos + 1)])
    | some nextCommaPos =>
        splitSubtypesLoop aSubtypes nextCommaPos m
          (acc ++ [substrLen aSubtypes (prevCommaPos + 1) (nextCommaPos - prevCommaPos - 1)])

/-- `SplitSubtypes` (dns_utils.cpp): appends the parsed subtype entries to the
caller-supplied list.  When the fragment holds no comma the loop bound
`std::count(...) == 0` makes the loop body unreachable and the list is
returned unchanged, which is also what the `none` arm returns here. -/
def SplitSubtypes (aSubtypes : List Char) (aSubtypesList : List (List Char)) :
    List (List Char) :=
  match findCharFrom aSubtypes ',' 0 with
  | none => aSubtypesList
  | some prevCommaPos =>
      splitSubtypesLoop aSubtypes prevCommaPos (countChar ',' aSubtypes) aSubtypesList

/-- `transportPos` computation of `SplitFullDnsName`: `rfind("._udp")`, and on
npos `rfind("._tcp")`. -/
def transportFind (fullName : List Char) : Option Nat :=
  match rfindSub fullName udpMarker with
  | some transportPos => some transportPos
  | none => rfindSub fullName tcpMarker

/-- The `// host.domain or domain` branch of `SplitFullDnsName`.  The `none`
arm is where `assert(dotPos != std::string::npos)` sits in the C++; it is
unreachable for every input of `SplitFullDnsName` (the normalized name ends in
a dot), and is embedded after the release-mode `size_t` arithmetic, where
`npos` wraps so that both `substr` calls return the whole string. -/
def hostBranch (fullName : List Char) : DnsNameInfo :=
  match findCharFrom fullName '.' 0 with
  | none => { mHostName := fullName, mDomain := fullName }
  | some dotPos =>
      { mHostName := substrLen fullName 0 dotPos
        mDomain := substrLen fullName (dotPos + 1) (fullName.length - dotPos - 1) }

/-- `mDomain` on the service branch: `substr(domainPos + 1)`.  On
`domainPos == npos` the C++ start position `npos + 1` wraps to `0`, yielding
the whole string. -/
def serviceDomain (fullName : List Char) (transportPos : Nat) : List Char :=
  match findCharFrom fullName '.' (transportPos + 1) with
  | none => fullName
  | some domainPos => substrFrom fullName (domainPos + 1)

/-- The fragment `substr(commaPos, domainPos - commaPos)` handed to
`SplitSubtypes`.  The subtraction is on `size_t`: with `domainPos` npos, or
with the comma to the right of `domainPos`, the wrapped length exceeds the
string length and `substr` clamps to the tail. -/
def subtypeFragment (fullName : List Char) (commaPos : Nat) (domainPos : Option Nat) :
    List Char :=
  match domainPos with
  | some d =>
      if commaPos ≤ d then substrLen fullName commaPos (d - commaPos)
      else substrFrom fullName commaPos
  | none => substrFrom fullName commaPos

/-- `mSubtypes` on the service branch: on a comma anywhere in the name, hand
the fragment up to `domainPos` to `SplitSubtypes` (starting from the
default-empty vector). -/
def serviceSubtypes (fullName : List Char) (transportPos : Nat) : List (List Char) :=
  match findCharFrom fullName ',' 0 with
  | none => []
  | some commaPos =>
      SplitSubtypes
        (subtypeFragment fullName commaPos (findCharFrom fullName '.' (transportPos + 1))) []

/-- The `// service or service instance` branch of `SplitFullDnsName`. -/
def serviceBranch (fullName : List Char) (transportPos : Nat) : DnsNameInfo :=
  match (if transportPos > 0 then findLastCharLe fullName '.' (transportPos - 1) else none) with
  | none =>
      { mServiceName := substrLen fullName 0 (transportPos + 5)
        mDomain := serviceDomain fullName transportPos
        mSubtypes := serviceSubtypes fullName transportPos }
  | some dotPos =>
      { mInstanceName := substrLen fullName 0 dotPos
        mServiceName := substrLen fullName (dotPos + 1) (transportPos + 4 - dotPos)
        mDomain := serviceDomain fullName transportPos
        mSubtypes := serviceSubtypes fullName transportPos }

/-- Branch dispatch of `SplitFullDnsName` on the normalized name. -/
def splitNormalizedBody (fullName : List Char) : DnsNameInfo :=
  match transportFind fullName with
  | none => hostBranch fullName
  | some transportPos => serviceBranch fullName transportPos

/-- `SplitFullDnsName` (dns_utils.cpp): normalize the working copy to end in a
dot, dispatch on the transport marker, and finally re-normalize `mDomain`. -/
def SplitFullDnsName (aName : List Char) : DnsNameInfo :=
  let nameInfo := splitNormalizedBody (ensureEndsWithDot aName)
  { nameInfo with mDomain := ensureEndsWithDot nameInfo.mDomain }

/-- `SplitFullServiceInstanceName` (dns_utils.cpp): the C++ writes through
output references and returns an error code; embedded as a function from the
initial values of those outputs to the error code paired with their final
values.  `VerifyOrExit` jumps to `exit` before any output is written. -/
def SplitFullServiceInstanceName (aFullName aInstanceName aType : List Char)
    (aSubtypes : List (List Char)) (aDomain : List Char) :
    otbrError × List Char × List Char × List (List Char) × List Char :=
  let nameInfo := SplitFullDnsName aFullName
  if nameInfo.IsServiceInstance then
    (otbrError.OTBR_ERROR_NONE, nameInfo.mInstanceName, nameInfo.mServiceName,
      nameInfo.mSubtypes, nameInfo.mDomain)
  else
    (otbrError.OTBR_ERROR_INVALID_ARGS, aInstanceName, aType, aSubtypes, aDomain)

/-- `SplitFullServiceName` (dns_utils.cpp), embedded like
`SplitFullServiceInstanceName`. -/
def SplitFullServiceName (aFullName aType aDomain : List Char) :
    otbrError × List Char × List Char :=
  let nameInfo := SplitFullDnsName aFullName
  if nameInfo.IsService then
    (otbrError.OTBR_ERROR_NONE, nameInfo.mServiceName, nameInfo.mDomain)
  else
    (otbrError.OTBR_ERROR_INVALID_ARGS, aType, aDomain)

/-- `SplitFullHostName` (dns_utils.cpp), embedded like
`SplitFullServiceInstanceName`. -/
def SplitFullHostName (aFullName aHostName aDomain : List Char) :
    otbrError × List Char × List Char :=
  let nameInfo := SplitFullDnsName aFullName
  if nameInfo.IsHost then
    (otbrError.OTBR_ERROR_NONE, nameInfo.mHostName, nameInfo.mDomain)
  else
    (otbrError.OTBR_ERROR_INVALID_ARGS, aHostName, aDomain)

/-- The first comma-free run of the fragment; spec-side helper for the
segment description of §4.2. -/
def takeToComma : List Char → List Char
  | [] => []
  | c :: rest => if c = ',' then [] else c :: takeToComma rest

/-- Formalizes the spec's description of the subtype segments (§4.2): one
entry per comma, holding the text from right after that comma up to the next
comma or the end of the fragment, in left-to-right order, empty segments
kept. -/
def segmentsAfterCommas : List Char → List (List Char)
  | [] => []
  | c :: rest =>
      if c = ',' then takeToComma rest :: segmentsAfterCommas rest
      else segmentsAfterCommas rest

/-! ### Helper lemmas -/

theorem mem_of_getLast_eq {α : Type _} {l : List α} {a : α} (h : l.getLast? = some a) :
    a ∈ l := by
  induction l with
  | nil => simp at h
  | cons x xs ih =>
    cases xs with
    | nil =>
      simp only [List.getLast?_singleton, Option.some.injEq] at h
      simp [h]
    | cons y ys =>
      rw [List.getLast?_cons_cons] at h
      exact List.mem_cons_of_mem x (ih h)

theorem isEmpty_false_of_ne {α : Type _} {l : List α} (h : l ≠ []) : l.isEmpty = false := by
  cases l with
  | nil => exact absurd rfl h
  | cons x xs => rfl

theorem nameEndsWithDot_append_dot (s : List Char) : NameEndsWithDot (s ++ ['.']) = true := by
  unfold NameEndsWithDot
  rw [List.getLast?_concat]
  decide

theorem nameEndsWithDot_ensure (s : List Char) :
    NameEndsWithDot (ensureEndsWithDot s) = true := by
  unfold ensureEndsWithDot
  cases h : NameEndsWithDot s with
  | true => simp [h]
  | false => simp [h, nameEndsWithDot_append_dot]

theorem getLast_of_endsWithDot {s : List Char} (h : NameEndsWithDot s = true) :
    s.getLast? = some '.' := by
  unfold NameEndsWithDot at h
  cases hg : s.getLast? with
  | none => rw [hg] at h; simp at h
  | some c =>
    rw [hg] at h
    simp only [decide_eq_true_eq] at h
    rw [h]

theorem ne_nil_of_endsWithDot {s : List Char} (h : NameEndsWithDot s = true) : s ≠ [] := by
  intro he
  subst he
  simp [NameEndsWithDot] at h

theorem findChar_exists_of_mem {c : Char} {s : List Char} (h : c ∈ s) :
    ∃ j, findChar c s = some j := by
  induction s with
  | nil => simp at h
  | cons x xs ih =>
    by_cases hx : x = c
    · exact ⟨0, by simp [findChar, hx]⟩
    · have hm : c ∈ xs := by
        rcases List.mem_cons.mp h with h1 | h1
        · exact absurd h1.symm hx
        · exact h1
      obtain ⟨j, hj⟩ := ih hm
      exact ⟨j + 1, by simp [findChar, hx, hj]⟩

theorem findChar_none_iff {c : Char} {s : List Char} :
    findChar c s = none ↔ countChar c s = 0 := by
  induction s with
  | nil => simp [findChar, countChar]
  | cons x xs ih =>
    by_cases hx : x = c
    · simp [findChar, countChar, hx]
    · simp [findChar, countChar, hx, ih]

theorem findChar_drop {c : Char} {s : List Char} {j : Nat} (h : findChar c s = some j) :
    s.drop j = c :: s.drop (j + 1) := by
  induction s generalizing j with
  | nil => simp [findChar] at h
  | cons x xs ih =>
    unfold findChar at h
    by_cases hx : x = c
    · rw [if_pos hx] at h
      injection h with h
      subst h
      simp [hx]
    · rw [if_neg hx, Option.map_eq_some'] at h
      obtain ⟨j', hj', hsum⟩ := h
      subst hsum
      rw [List.drop_succ_cons, List.drop_succ_cons]
      exact ih hj'

theorem findChar_take_none {c : Char} {s : List Char} {j : Nat} (h : findChar c s = some j) :
    findChar c (s.take j) = none := by
  induction s generalizing j with
  | nil => simp [findChar] at h
  | cons x xs ih =>
    unfold findChar at h
    by_cases hx : x = c
    · rw [if_pos hx] at h
      injection h with h
      subst h
      simp [findChar]
    · rw [if_neg hx, Option.map_eq_some'] at h
      obtain ⟨j', hj', hsum⟩ := h
      subst hsum
      rw [List.take_succ_cons]
      unfold findChar
      rw [if_neg hx, ih hj']
      rfl

theorem countChar_append (c : Char) (a b : List Char) :
    countChar c (a ++ b) = countChar c a + countChar c b := by
  induction a with
  | nil => simp [countChar]
  | cons x xs ih => simp [countChar, ih]; omega

theorem findChar_count {c : Char} {s : List Char} {j : Nat} (h : findChar c s = some j) :
    countChar c s = 1 + countChar c (s.drop (j + 1)) := by
  conv_lhs => rw [← List.take_append_drop j s]
  rw [countChar_append, findChar_drop h]
  have h0 : countChar c (s.take j) = 0 := findChar_none_iff.mp (findChar_take_none h)
  simp [h0, countChar]

theorem takeToComma_of_none {s : List Char} (h : findChar ',' s = none) :
    takeToComma s = s := by
  induction s with
  | nil => rfl
  | cons x xs ih =>
    unfold findChar at h
    by_cases hx : x = ','
    · rw [if_pos hx] at h
      exact Option.noConfusion h
    · rw [if_neg hx, Option.map_eq_none'] at h
      simp [takeToComma, hx, ih h]

theorem segmentsAfterCommas_of_none {s : List Char} (h : findChar ',' s = none) :
    segmentsAfterCommas s = [] := by
  induction s with
  | nil => rfl
  | cons x xs ih =>
    unfold findChar at h
    by_cases hx : x = ','
    · rw [if_pos hx] at h
      exact Option.noConfusion h
    · rw [if_neg hx, Option.map_eq_none'] at h
      simp [segmentsAfterCommas, hx, ih h]

theorem takeToComma_of_some {s : List Char} {j : Nat} (h : findChar ',' s = some j) :
    takeToComma s = s.take j := by
  induction s generalizing j with
  | nil => simp [findChar] at h
  | cons x xs ih =>
    unfold findChar at h
    by_cases hx : x = ','
    · rw [if_pos hx] at h
      injection h with h
      subst h
      simp [takeToComma, hx]
    · rw [if_neg hx, Option.map_eq_some'] at h
      obtain ⟨j', hj', hsum⟩ := h
      subst hsum
      simp [takeToComma, hx, List.take_succ_cons, ih hj']

theorem segmentsAfterCommas_of_some {s : List Char} {j : Nat} (h : findChar ',' s = some j) :
    segmentsAfterCommas s = segmentsAfterCommas (s.drop j) := by
  induction s generalizing j with
  | nil => simp [findChar] at h
  | cons x xs ih =>
    unfold findChar at h
    by_cases hx : x = ','
    · rw [if_pos hx] at h
      injection h with h
      subst h
      rw [List.drop_zero]
    · rw [if_neg hx, Option.map_eq_some'] at h
      obtain ⟨j', hj', hsum⟩ := h
      subst hsum
      simp [segmentsAfterCommas, hx, List.drop_succ_cons, ih hj']

theorem segmentsAfterCommas_length (s : List Char) :
    (segmentsAfterCommas s).length = countChar ',' s := by
  induction s with
  | nil => rfl
  | cons x xs ih =>
    by_cases hx : x = ','
    · simp [segmentsAfterCommas, countChar, hx, ih]; omega
    · simp [segmentsAfterCommas, countChar, hx, ih]

theorem splitSubtypesLoop_spec (s : List Char) (m : Nat) :
    ∀ (prev : Nat) (acc : List (List Char)),
      countChar ',' (s.drop (prev + 1)) = m →
      splitSubtypesLoop s prev (m + 1) acc
        = acc ++ segmentsAfterCommas (',' :: s.drop (prev + 1)) := by
  induction m with
  | zero =>
    intro prev acc h0
    have hnone : findChar ',' (s.drop (prev + 1)) = none := findChar_none_iff.mpr h0
    have hfrom : findCharFrom s ',' (prev + 1) = none := by
      simp [findCharFrom, hnone]
    rw [splitSubtypesLoop, hfrom]
    have hz : splitSubtypesLoop s prev 0 (acc ++ [substrFrom s (prev + 1)])
        = acc ++ [substrFrom s (prev + 1)] := rfl
    rw [hz]
    simp [segmentsAfterCommas, substrFrom, takeToComma_of_none hnone,
      segmentsAfterCommas_of_none hnone]
  | succ k ih =>
    intro prev acc h
    obtain ⟨j, hj⟩ : ∃ j, findChar ',' (s.drop (prev + 1)) = some j := by
      cases hfc : findChar ',' (s.drop (prev + 1)) with
      | none => rw [findChar_none_iff] at hfc; omega
      | some j => exact ⟨j, rfl⟩
    have hfrom : findCharFrom s ',' (prev + 1) = some (prev + 1 + j) := by
      simp [findCharFrom, hj]
    have hidx : prev + 1 + j - prev - 1 = j := by omega
    have hdrop : s.drop (prev + 1 + j + 1) = (s.drop (prev + 1)).drop (j + 1) := by
      rw [List.drop_drop]
      congr 1
    have hcnt : countChar ',' (s.drop (prev + 1 + j + 1)) = k := by
      rw [hdrop]
      have hfc := findChar_count hj
      omega
    have hstep := ih (prev + 1 + j) (acc ++ [substrLen s (prev + 1) j]) hcnt
    have ht : (s.drop (prev + 1)).drop j = ',' :: (s.drop (prev + 1)).drop (j + 1) :=
      findChar_drop hj
    have hunfold : splitSubtypesLoop s prev (k + 1 + 1) acc
        = splitSubtypesLoop s (prev + 1 + j) (k + 1)
            (acc ++ [substrLen s (prev + 1) (prev + 1 + j - prev - 1)]) := by
      rw [splitSubtypesLoop, hfrom]
    rw [hidx] at hunfold
    rw [hunfold, hstep, hdrop]
    have hseg : segmentsAfterCommas (',' :: s.drop (prev + 1))
        = takeToComma (s.drop (prev + 1)) :: segmentsAfterCommas (s.drop (prev + 1)) := by
      simp [segmentsAfterCommas]
    rw [hseg, takeToComma_of_some hj, segmentsAfterCommas_of_some hj, ht]
    simp [substrLen]

theorem SplitSubtypes_eq_append (fragment : List Char) (acc : List (List Char)) :
    SplitSubtypes fragment acc = acc ++ segmentsAfterCommas fragment := by
  cases hf : findCharFrom fragment ',' 0 with
  | none =>
    have hnone : findChar ',' fragment = none := by
      simpa [findCharFrom] using hf
    rw [SplitSubtypes, hf, segmentsAfterCommas_of_none hnone]
    simp
  | some p =>
    have hj : findChar ',' fragment = some p := by
      simp only [findCharFrom, List.drop_zero, Option.map_eq_some'] at hf
      obtain ⟨j, hj, hjp⟩ := hf
      simpa [← hjp] using hj
    have hc : countChar ',' fragment = countChar ',' (fragment.drop (p + 1)) + 1 := by
      have := findChar_count hj
      omega
    have hm : SplitSubtypes fragment acc
        = splitSubtypesLoop fragment p (countChar ',' fragment) acc := by
      rw [SplitSubtypes, hf]
    rw [hm, hc, splitSubtypesLoop_spec fragment _ p acc rfl]
    rw [segmentsAfterCommas_of_some hj, findChar_drop hj]

theorem isPrefixOf_length_le {pat t : List Char} (h : pat.isPrefixOf t = true) :
    pat.length ≤ t.length := by
  induction pat generalizing t with
  | nil => simp
  | cons a as ih =>
    cases t with
    | nil => simp [List.isPrefixOf] at h
    | cons b bs =>
      simp only [List.isPrefixOf, Bool.and_eq_true, beq_iff_eq] at h
      exact Nat.succ_le_succ (ih h.2)

theorem rfindSub_fit {s pat : List Char} {p : Nat} (h : rfindSub s pat = some p) :
    p + pat.length ≤ s.length := by
  unfold rfindSub at h
  have hmem := mem_of_getLast_eq h
  rw [List.mem_filter] at hmem
  obtain ⟨hr, hp⟩ := hmem
  have hlen := isPrefixOf_length_le hp
  rw [List.length_drop] at hlen
  rw [List.mem_range] at hr
  omega

theorem transportFind_fit {s : List Char} {tp : Nat} (h : transportFind s = some tp) :
    tp + 5 ≤ s.length := by
  unfold transportFind at h
  cases hu : rfindSub s udpMarker with
  | some p =>
    rw [hu] at h
    have hp : p = tp := by simpa using h
    subst hp
    have := rfindSub_fit hu
    simpa [udpMarker] using this
  | none =>
    rw [hu] at h
    have := rfindSub_fit h
    simpa [tcpMarker] using this

theorem findLastCharLe_facts {s : List Char} {c : Char} {pos i : Nat}
    (h : findLastCharLe s c pos = some i) : i < s.length ∧ i ≤ pos := by
  unfold findLastCharLe at h
  have hmem := mem_of_getLast_eq h
  rw [List.mem_filter] at hmem
  obtain ⟨hr, hp⟩ := hmem
  rw [List.mem_range] at hr
  refine ⟨hr, ?_⟩
  simp only [Bool.and_eq_true, decide_eq_true_eq] at hp
  exact hp.1

theorem splitFullDnsName_fields (aName : List Char) :
    (SplitFullDnsName aName).mHostName
        = (splitNormalizedBody (ensureEndsWithDot aName)).mHostName ∧
    (SplitFullDnsName aName).mServiceName
        = (splitNormalizedBody (ensureEndsWithDot aName)).mServiceName ∧
    (SplitFullDnsName aName).mInstanceName
        = (splitNormalizedBody (ensureEndsWithDot aName)).mInstanceName ∧
    (SplitFullDnsName aName).mSubtypes
        = (splitNormalizedBody (ensureEndsWithDot aName)).mSubtypes ∧
    (SplitFullDnsName aName).mDomain
        = ensureEndsWithDot ((splitNormalizedBody (ensureEndsWithDot aName)).mDomain) :=
  ⟨rfl, rfl, rfl, rfl, rfl⟩

theorem splitNormalizedBody_shape (fullName : List Char) :
    ((splitNormalizedBody fullName).mServiceName = [] ∧
      (splitNormalizedBody fullName).mInstanceName = [])
    ∨ ((splitNormalizedBody fullName).mHostName = [] ∧
       ((splitNormalizedBody fullName).mInstanceName = [] ∨
        (splitNormalizedBody fullName).mServiceName ≠ [])) := by
  cases htp : transportFind fullName with
  | none =>
    left
    have hb : splitNormalizedBody fullName = hostBranch fullName := by
      rw [splitNormalizedBody, htp]
    rw [hb]
    cases hd : findCharFrom fullName '.' 0 with
    | none =>
      have hh : hostBranch fullName = { mHostName := fullName, mDomain := fullName } := by
        rw [hostBranch, hd]
      rw [hh]
      exact ⟨rfl, rfl⟩
    | some dotPos =>
      have hh : hostBranch fullName
          = { mHostName := substrLen fullName 0 dotPos
              mDomain := substrLen fullName (dotPos + 1) (fullName.length - dotPos - 1) } := by
        rw [hostBranch, hd]
      rw [hh]
      exact ⟨rfl, rfl⟩
  | some tp =>
    right
    have hb : splitNormalizedBody fullName = serviceBranch fullName tp := by
      rw [splitNormalizedBody, htp]
    rw [hb]
    have hfit : tp + 5 ≤ fullName.length := transportFind_fit htp
    cases hdp : (if tp > 0 then findLastCharLe fullName '.' (tp - 1) else none) with
    | none =>
      have hs : serviceBranch fullName tp
          = { mServiceName := substrLen fullName 0 (tp + 5)
              mDomain := serviceDomain fullName tp
              mSubtypes := serviceSubtypes fullName tp } := by
        rw [serviceBranch, hdp]
      rw [hs]
      exact ⟨rfl, Or.inl rfl⟩
    | some dp =>
      have hs : serviceBranch fullName tp
          = { mInstanceName := substrLen fullName 0 dp
              mServiceName := substrLen fullName (dp + 1) (tp + 4 - dp)
              mDomain := serviceDomain fullName tp
              mSubtypes := serviceSubtypes fullName tp } := by
        rw [serviceBranch, hdp]
      rw [hs]
      refine ⟨rfl, Or.inr ?_⟩
      have htp0 : 0 < tp := by
        by_contra h0
        rw [if_neg h0] at hdp
        exact Option.noConfusion hdp
      rw [if_pos htp0] at hdp
      have hfacts := findLastCharLe_facts hdp
      have hdp_lt : dp < tp := by omega
      show substrLen fullName (dp + 1) (tp + 4 - dp) ≠ []
      unfold substrLen
      rw [Ne, List.take_eq_nil_iff]
      push_neg
      constructor
      · omega
      · rw [Ne, List.drop_eq_nil_iff]
        push_neg
        omega

/-! ### Claim theorems -/

/-- Claim C3: `SplitFullDnsName` is total.  The embedding is a total function,
and the `assert(dotPos != std::string::npos)` on the non-service branch holds
for every input: the normalized name is non-empty and the search for its first
`'.'` always succeeds, because normalization appends a trailing dot whenever
one is missing. -/
theorem splitFullDnsName_first_dot_found (aName : List Char) :
    (ensureEndsWithDot aName).isEmpty = false ∧
    ∃ dotPos, findCharFrom (ensureEndsWithDot aName) '.' 0 = some dotPos := by
  have h := nameEndsWithDot_ensure aName
  refine ⟨isEmpty_false_of_ne (ne_nil_of_endsWithDot h), ?_⟩
  have hmem : '.' ∈ ensureEndsWithDot aName := mem_of_getLast_eq (getLast_of_endsWithDot h)
  obtain ⟨j, hj⟩ := findChar_exists_of_mem hmem
  exact ⟨j, by simp [findCharFrom, hj]⟩

/-- Claim C4: for every fragment and every pre-existing list, `SplitSubtypes`
appends exactly `countOf(',', fragment)` entries - the segments between
consecutive commas and after the last comma, in order, empty segments kept -
and never removes or clears existing entries. -/
theorem splitSubtypes_appends_comma_segments (fragment : List Char)
    (aSubtypesList : List (List Char)) :
    SplitSubtypes fragment aSubtypesList
        = aSubtypesList ++ segmentsAfterCommas fragment ∧
    (segmentsAfterCommas fragment).length = countChar ',' fragment :=
  ⟨SplitSubtypes_eq_append fragment aSubtypesList, segmentsAfterCommas_length fragment⟩

/-- Claim C5: for every input, the `mDomain` of the returned `DnsNameInfo` is
non-empty and ends with the character `'.'`. -/
theorem splitFullDnsName_domain_dot_terminated (aName : List Char) :
    (SplitFullDnsName aName).mDomain.getLast? = some '.' ∧
    (SplitFullDnsName aName).mDomain.isEmpty = false := by
  have hd : (SplitFullDnsName aName).mDomain
      = ensureEndsWithDot ((splitNormalizedBody (ensureEndsWithDot aName)).mDomain) := rfl
  rw [hd]
  have h := nameEndsWithDot_ensure ((splitNormalizedBody (ensureEndsWithDot aName)).mDomain)
  exact ⟨getLast_of_endsWithDot h, isEmpty_false_of_ne (ne_nil_of_endsWithDot h)⟩

/-- Claim C6: for every input, `mHostName` and `mServiceName` are never both
non-empty, `mInstanceName` is non-empty only when `mServiceName` is, and hence
no two of `IsHost`, `IsService`, `IsServiceInstance` hold together. -/
theorem splitFullDnsName_shape_exclusive (aName : List Char) :
    ((SplitFullDnsName aName).mHostName.isEmpty
        || (SplitFullDnsName aName).mServiceName.isEmpty) = true ∧
    ((SplitFullDnsName aName).mInstanceName.isEmpty
        || !(SplitFullDnsName aName).mServiceName.isEmpty) = true ∧
    ((SplitFullDnsName aName).IsHost && (SplitFullDnsName aName).IsService) = false ∧
    ((SplitFullDnsName aName).IsHost && (SplitFullDnsName aName).IsServiceInstance) = false ∧
    ((SplitFullDnsName aName).IsService && (SplitFullDnsName aName).IsServiceInstance)
        = false := by
  obtain ⟨h1, h2, h3, _, _⟩ := splitFullDnsName_fields aName
  have hm := splitNormalizedBody_shape (ensureEndsWithDot aName)
  simp only [DnsNameInfo.IsHost, DnsNameInfo.IsService, DnsNameInfo.IsServiceInstance,
    h1, h2, h3]
  rcases hm with ⟨hs, hi⟩ | ⟨hh, hrest⟩
  · rw [hs, hi]
    simp
  · rw [hh]
    rcases hrest with hi | hs
    · rw [hi]
      simp
    · rw [isEmpty_false_of_ne hs]
      cases hb : (splitNormalizedBody (ensureEndsWithDot aName)).mInstanceName.isEmpty <;>
        simp [hb]

/-- Claim C1, counterexample: on the input
`"myinstance,subA,subB._service._udp.example.com."` the code does not return
`instanceName = "myinstance"` with `subtypes = ["subA", "subB"]`: the comma
fragment handed to `SplitSubtypes` runs to the first dot after the transport
marker, and `dotPos` (the last dot before the marker) sits after the subtype
list, so the instance name swallows the subtype fragment. -/
theorem splitFullDnsName_subtype_example_refuted :
    ¬((SplitFullDnsName "myinstance,subA,subB._service._udp.example.com.".toList).mInstanceName
        = "myinstance".toList ∧
      (SplitFullDnsName "myinstance,subA,subB._service._udp.example.com.".toList).mSubtypes
        = ["subA".toList, "subB".toList]) := by
  decide

/-- Claim C1 (amended): on
`"myinstance,subA,subB._service._udp.example.com."` the result has
`instanceName = "myinstance,subA,subB"`, `serviceName = "_service._udp"`,
`domain = "example.com."` and `subtypes = ["subA", "subB._service._udp"]`,
the fragment from the first comma to the first dot after the transport marker
being handed to `SplitSubtypes`.  The claimed fields arise for the input
`"myinstance._service._udp,subA,subB.example.com."`, whose fragment
`",subA,subB"` is handed to `SplitSubtypes` and populates `subtypes` in
order. -/
theorem splitFullDnsName_subtype_examples :
    SplitFullDnsName "myinstance,subA,subB._service._udp.example.com.".toList
      = { mInstanceName := "myinstance,subA,subB".toList
          mServiceName := "_service._udp".toList
          mDomain := "example.com.".toList
          mSubtypes := ["subA".toList, "subB._service._udp".toList] } ∧
    (SplitFullDnsName "myinstance,subA,subB._service._udp.example.com.".toList).mSubtypes
      = SplitSubtypes ",subA,subB._service._udp".toList [] ∧
    SplitFullDnsName "myinstance._service._udp,subA,subB.example.com.".toList
      = { mInstanceName := "myinstance".toList
          mServiceName := "_service._udp".toList
          mDomain := "example.com.".toList
          mSubtypes := ["subA".toList, "subB".toList] } ∧
    (SplitFullDnsName "myinstance._service._udp,subA,subB.example.com.".toList).mSubtypes
      = SplitSubtypes ",subA,subB".toList [] := by
  refine ⟨by decide, by decide, by decide, by decide⟩

/-- Claim C2, counterexample: `"host.example.com."` already ends with a dot,
and appending one further dot changes the parse: the domain becomes
`"example.com.."`. -/
theorem splitFullDnsName_extra_dot_changes_parse :
    NameEndsWithDot "host.example.com.".toList = true ∧
    SplitFullDnsName ("host.example.com.".toList ++ ['.'])
      ≠ SplitFullDnsName "host.example.com.".toList := by
  refine ⟨by decide, by decide⟩

/-- Claim C2 (amended): appending a trailing `'.'` to a name that does NOT
already end with `'.'` does not change the result of `SplitFullDnsName`: both
runs normalize to the same working string. -/
theorem splitFullDnsName_append_dot_not_dotted (aName : List Char)
    (h : NameEndsWithDot aName = false) :
    SplitFullDnsName (aName ++ ['.']) = SplitFullDnsName aName := by
  have h1 : ensureEndsWithDot (aName ++ ['.']) = aName ++ ['.'] := by
    unfold ensureEndsWithDot
    rw [if_pos (nameEndsWithDot_append_dot aName)]
  have h2 : ensureEndsWithDot aName = aName ++ ['.'] := by
    unfold ensureEndsWithDot
    rw [h]
    simp
  unfold SplitFullDnsName
  rw [h1, h2]

/-- Witness for C2 (amended) at `"host.example.com"`. -/
theorem splitFullDnsName_append_dot_not_dotted_witness :
    SplitFullDnsName ("host.example.com".toList ++ ['.'])
      = SplitFullDnsName "host.example.com".toList :=
  splitFullDnsName_append_dot_not_dotted "host.example.com".toList (by decide)

/-- Claim C7: the transport split point is the last `"._udp"` occurrence when
one exists, the last `"._tcp"` occurrence otherwise; with neither, the
non-service branch takes `hostName` = everything before the first dot and
`domain` = everything after it.  With both markers present the split anchors
at the last `"._udp"` even when a `"._tcp"` occurs further right, as the
concrete conjunct shows. -/
theorem splitFullDnsName_udp_priority (aName : List Char) :
    (∀ p, rfindSub (ensureEndsWithDot aName) udpMarker = some p →
        transportFind (ensureEndsWithDot aName) = some p) ∧
    (rfindSub (ensureEndsWithDot aName) udpMarker = none →
        transportFind (ensureEndsWithDot aName)
          = rfindSub (ensureEndsWithDot aName) tcpMarker) ∧
    (∀ dotPos, transportFind (ensureEndsWithDot aName) = none →
        findCharFrom (ensureEndsWithDot aName) '.' 0 = some dotPos →
        (SplitFullDnsName aName).mHostName = (ensureEndsWithDot aName).take dotPos ∧
        (SplitFullDnsName aName).mDomain
          = ensureEndsWithDot ((ensureEndsWithDot aName).drop (dotPos + 1))) ∧
    SplitFullDnsName "myinst._svc._udp.something._tcp.example.com.".toList
      = { mInstanceName := "myinst".toList
          mServiceName := "_svc._udp".toList
          mDomain := "something._tcp.example.com.".toList } := by
  refine ⟨?_, ?_, ?_, by decide⟩
  · intro p hp
    rw [transportFind, hp]
  · intro hn
    rw [transportFind, hn]
  · intro dotPos htp hfd
    have hb : splitNormalizedBody (ensureEndsWithDot aName)
        = hostBranch (ensureEndsWithDot aName) := by
      rw [splitNormalizedBody, htp]
    have hh : hostBranch (ensureEndsWithDot aName)
        = { mHostName := substrLen (ensureEndsWithDot aName) 0 dotPos
            mDomain := substrLen (ensureEndsWithDot aName) (dotPos + 1)
              ((ensureEndsWithDot aName).length - dotPos - 1) } := by
      rw [hostBranch, hfd]
    obtain ⟨hf1, _, _, _, hf5⟩ := splitFullDnsName_fields aName
    constructor
    · rw [hf1, hb, hh]
      show substrLen (ensureEndsWithDot aName) 0 dotPos = _
      unfold substrLen
      rw [List.drop_zero]
    · rw [hf5, hb, hh]
      show ensureEndsWithDot (substrLen (ensureEndsWithDot aName) (dotPos + 1)
        ((ensureEndsWithDot aName).length - dotPos - 1)) = _
      congr 1
      unfold substrLen
      have hlen : (ensureEndsWithDot aName).length - dotPos - 1
          = ((ensureEndsWithDot aName).drop (dotPos + 1)).length := by
        rw [List.length_drop]
        omega
      rw [hlen, List.take_length]

/-- Witness for C7 at `"host.example.com"` with first dot at index 4. -/
theorem splitFullDnsName_udp_priority_witness :
    (SplitFullDnsName "host.example.com".toList).mHostName
      = (ensureEndsWithDot "host.example.com".toList).take 4 ∧
    (SplitFullDnsName "host.example.com".toList).mDomain
      = ensureEndsWithDot ((ensureEndsWithDot "host.example.com".toList).drop (4 + 1)) :=
  (splitFullDnsName_udp_priority "host.example.com".toList).2.2.1 4 (by decide) (by decide)

/-- Claim C8: on the service branch, with no dot before the transport marker
the service name is the prefix of the normalized name of length
`transportPos + 5` and the instance name stays empty; with such a dot at
`dotPos`, the instance name is the text before it and the service name spans
`dotPos + 1` through `transportPos + 4` inclusive.  The two concrete conjuncts
are the spec's examples. -/
theorem splitFullDnsName_service_branch_shapes (aName : List Char) (tp dp : Nat) :
    (transportFind (ensureEndsWithDot aName) = some tp →
      (if tp > 0 then findLastCharLe (ensureEndsWithDot aName) '.' (tp - 1) else none)
          = none →
      (SplitFullDnsName aName).mServiceName = (ensureEndsWithDot aName).take (tp + 5) ∧
      (SplitFullDnsName aName).mInstanceName = []) ∧
    (transportFind (ensureEndsWithDot aName) = some tp →
      (if tp > 0 then findLastCharLe (ensureEndsWithDot aName) '.' (tp - 1) else none)
          = some dp →
      (SplitFullDnsName aName).mInstanceName = (ensureEndsWithDot aName).take dp ∧
      (SplitFullDnsName aName).mServiceName
        = ((ensureEndsWithDot aName).drop (dp + 1)).take (tp + 4 - dp)) ∧
    SplitFullDnsName "_service._udp.example.com.".toList
      = { mServiceName := "_service._udp".toList, mDomain := "example.com.".toList } ∧
    SplitFullDnsName "myinstance._service._udp.example.com.".toList
      = { mInstanceName := "myinstance".toList
          mServiceName := "_service._udp".toList
          mDomain := "example.com.".toList } := by
  obtain ⟨_, hf2, hf3, _, _⟩ := splitFullDnsName_fields aName
  refine ⟨?_, ?_, by decide, by decide⟩
  · intro htp hdp
    have hb : splitNormalizedBody (ensureEndsWithDot aName)
        = serviceBranch (ensureEndsWithDot aName) tp := by
      rw [splitNormalizedBody, htp]
    have hs : serviceBranch (ensureEndsWithDot aName) tp
        = { mServiceName := substrLen (ensureEndsWithDot aName) 0 (tp + 5)
            mDomain := serviceDomain (ensureEndsWithDot aName) tp
            mSubtypes := serviceSubtypes (ensureEndsWithDot aName) tp } := by
      rw [serviceBranch, hdp]
    refine ⟨?_, ?_⟩
    · rw [hf2, hb, hs]
      show substrLen (ensureEndsWithDot aName) 0 (tp + 5) = _
      unfold substrLen
      rw [List.drop_zero]
    · rw [hf3, hb, hs]
  · intro htp hdp
    have hb : splitNormalizedBody (ensureEndsWithDot aName)
        = serviceBranch (ensureEndsWithDot aName) tp := by
      rw [splitNormalizedBody, htp]
    have hs : serviceBranch (ensureEndsWithDot aName) tp
        = { mInstanceName := substrLen (ensureEndsWithDot aName) 0 dp
            mServiceName := substrLen (ensureEndsWithDot aName) (dp + 1) (tp + 4 - dp)
            mDomain := serviceDomain (ensureEndsWithDot aName) tp
            mSubtypes := serviceSubtypes (ensureEndsWithDot aName) tp } := by
      rw [serviceBranch, hdp]
    refine ⟨?_, ?_⟩
    · rw [hf3, hb, hs]
      show substrLen (ensureEndsWithDot aName) 0 dp = _
      unfold substrLen
      rw [List.drop_zero]
    · rw [hf2, hb, hs]
      rfl

/-- Witness for C8 at `"myinstance._service._udp.example.com."` with the
transport marker at 19 and the dot before it at 10. -/
theorem splitFullDnsName_service_branch_shapes_witness :
    (SplitFullDnsName "myinstance._service._udp.example.com.".toList).mInstanceName
      = (ensureEndsWithDot "myinstance._service._udp.example.com.".toList).take 10 ∧
    (SplitFullDnsName "myinstance._service._udp.example.com.".toList).mServiceName
      = ((ensureEndsWithDot "myinstance._service._udp.example.com.".toList).drop (10 + 1)).take
          (19 + 4 - 10) :=
  (splitFullDnsName_service_branch_shapes
    "myinstance._service._udp.example.com.".toList 19 10).2.1 (by decide) (by decide)

/-- Claim C9: each shape-specific extractor succeeds exactly when the parsed
`DnsNameInfo` satisfies the matching predicate; the only error it ever
returns is `OTBR_ERROR_INVALID_ARGS`; and on success it hands back the fields
of that shape. -/
theorem extractors_invalid_args_iff (aFullName aInstanceName aType aHostName
    aDomain : List Char) (aSubtypes : List (List Char)) :
    (((SplitFullServiceInstanceName aFullName aInstanceName aType aSubtypes aDomain).1
          = otbrError.OTBR_ERROR_NONE ↔
        (SplitFullDnsName aFullName).IsServiceInstance = true) ∧
      ((SplitFullServiceInstanceName aFullName aInstanceName aType aSubtypes aDomain).1
          = otbrError.OTBR_ERROR_NONE ∨
       (SplitFullServiceInstanceName aFullName aInstanceName aType aSubtypes aDomain).1
          = otbrError.OTBR_ERROR_INVALID_ARGS) ∧
      ((SplitFullDnsName aFullName).IsServiceInstance = true →
        SplitFullServiceInstanceName aFullName aInstanceName aType aSubtypes aDomain
          = (otbrError.OTBR_ERROR_NONE, (SplitFullDnsName aFullName).mInstanceName,
             (SplitFullDnsName aFullName).mServiceName, (SplitFullDnsName aFullName).mSubtypes,
             (SplitFullDnsName aFullName).mDomain))) ∧
    (((SplitFullServiceName aFullName aType aDomain).1 = otbrError.OTBR_ERROR_NONE ↔
        (SplitFullDnsName aFullName).IsService = true) ∧
      ((SplitFullServiceName aFullName aType aDomain).1 = otbrError.OTBR_ERROR_NONE ∨
       (SplitFullServiceName aFullName aType aDomain).1
          = otbrError.OTBR_ERROR_INVALID_ARGS) ∧
      ((SplitFullDnsName aFullName).IsService = true →
        SplitFullServiceName aFullName aType aDomain
          = (otbrError.OTBR_ERROR_NONE, (SplitFullDnsName aFullName).mServiceName,
             (SplitFullDnsName aFullName).mDomain))) ∧
    (((SplitFullHostName aFullName aHostName aDomain).1 = otbrError.OTBR_ERROR_NONE ↔
        (SplitFullDnsName aFullName).IsHost = true) ∧
      ((SplitFullHostName aFullName aHostName aDomain).1 = otbrError.OTBR_ERROR_NONE ∨
       (SplitFullHostName aFullName aHostName aDomain).1
          = otbrError.OTBR_ERROR_INVALID_ARGS) ∧
      ((SplitFullDnsName aFullName).IsHost = true →
        SplitFullHostName aFullName aHostName aDomain
          = (otbrError.OTBR_ERROR_NONE, (SplitFullDnsName aFullName).mHostName,
             (SplitFullDnsName aFullName).mDomain))) := by
  refine ⟨?_, ?_, ?_⟩
  · cases hp : (SplitFullDnsName aFullName).IsServiceInstance <;>
      simp [SplitFullServiceInstanceName, hp]
  · cases hp : (SplitFullDnsName aFullName).IsService <;>
      simp [SplitFullServiceName, hp]
  · cases hp : (SplitFullDnsName aFullName).IsHost <;>
      simp [SplitFullHostName, hp]

/-- Witness for C9: the service-instance extractor succeeds on
`"myinstance._service._udp.example.com."` and returns the parsed fields. -/
theorem extractors_invalid_args_iff_witness :
    SplitFullServiceInstanceName "myinstance._service._udp.example.com.".toList [] [] [] []
      = (otbrError.OTBR_ERROR_NONE,
         (SplitFullDnsName "myinstance._service._udp.example.com.".toList).mInstanceName,
         (SplitFullDnsName "myinstance._service._udp.example.com.".toList).mServiceName,
         (SplitFullDnsName "myinstance._service._udp.example.com.".toList).mSubtypes,
         (SplitFullDnsName "myinstance._service._udp.example.com.".toList).mDomain) :=
  (extractors_invalid_args_iff
    "myinstance._service._udp.example.com.".toList [] [] [] [] []).1.2.2 (by decide)

/-- Claim C10: when a shape-specific extractor fails with
`OTBR_ERROR_INVALID_ARGS`, every output parameter keeps exactly the value the
caller passed in, for every input name and every initial output value. -/
theorem extractors_error_leaves_outputs (aFullName aInstanceName aType aHostName
    aDomain : List Char) (aSubtypes : List (List Char)) :
    ((SplitFullServiceInstanceName aFullName aInstanceName aType aSubtypes aDomain).1
        = otbrError.OTBR_ERROR_INVALID_ARGS →
      SplitFullServiceInstanceName aFullName aInstanceName aType aSubtypes aDomain
        = (otbrError.OTBR_ERROR_INVALID_ARGS, aInstanceName, aType, aSubtypes, aDomain)) ∧
    ((SplitFullServiceName aFullName aType aDomain).1 = otbrError.OTBR_ERROR_INVALID_ARGS →
      SplitFullServiceName aFullName aType aDomain
        = (otbrError.OTBR_ERROR_INVALID_ARGS, aType, aDomain)) ∧
    ((SplitFullHostName aFullName aHostName aDomain).1 = otbrError.OTBR_ERROR_INVALID_ARGS →
      SplitFullHostName aFullName aHostName aDomain
        = (otbrError.OTBR_ERROR_INVALID_ARGS, aHostName, aDomain)) := by
  refine ⟨?_, ?_, ?_⟩
  · cases hp : (SplitFullDnsName aFullName).IsServiceInstance <;>
      simp [SplitFullServiceInstanceName, hp]
  · cases hp : (SplitFullDnsName aFullName).IsService <;>
      simp [SplitFullServiceName, hp]
  · cases hp : (SplitFullDnsName aFullName).IsHost <;>
      simp [SplitFullHostName, hp]

/-- Witness for C10: the service-instance extractor rejects the host name
`"host.example.com."` and leaves non-trivial initial outputs untouched. -/
theorem extractors_error_leaves_outputs_witness :
    SplitFullServiceInstanceName "host.example.com.".toList "i0".toList "t0".toList
        ["s0".toList] "d0".toList
      = (otbrError.OTBR_ERROR_INVALID_ARGS, "i0".toList, "t0".toList,
         ["s0".toList], "d0".toList) :=
  (extractors_error_leaves_outputs "host.example.com.".toList "i0".toList "t0".toList
    "h0".toList "d0".toList ["s0".toList]).1 (by decide)

end DnsUtils
